import Mathlib

/-
Verification of the kinship-resolution engine (src/kinship.py).

The program is embedded shallowly: persons are identified by their name
string (as the spec's design notes recommend for reimplementation), a
family is an association list from names to person records, and the BFS
of `Person.connections` is written with an explicit fuel parameter; we
prove that the fuel chosen by `connFuel` always suffices, so the fuelled
function is a faithful rendering of the terminating Python loop.

The `relationships` module (the kinship lookup table) is not part of the
repository sources; it is modelled from the spec, see `relationships`
below.
-/

set_option maxHeartbeats 1000000

namespace Kinship

/-- A person in the family (kinship.py, class Person): name, gender, the
list of parents (held by name), and an optional spouse (held by name). -/
structure Person where
  name : String
  gender : String
  parents : List String
  spouse : Option String
deriving DecidableEq

/-- The family (kinship.py, class Family): the `people` dictionary from
name to person, in insertion order. -/
structure Family where
  people : List (String × Person)
deriving DecidableEq

/-- First-match association-list lookup; the embedding of Python dict
indexing / `in` tests for the ordered dictionaries used by the program. -/
def alookup {α : Type} : List (String × α) → String → Option α
  | [], _ => none
  | e :: rest, n => if e.1 = n then some e.2 else alookup rest n

/-- Python's test `"S" not in personpath`, negated: does a path code
contain a spouse-step? -/
def hasS (s : String) : Bool := s.data.contains 'S'

/-- The inner `for parent in person.parents` loop of `connections`
(kinship.py lines 66-69): each parent not yet in the dictionary is
assigned `personpath + "P"` and enqueued. -/
def expandParents (pp : String) : List String → List (String × String) → List String →
    List (String × String) × List String
  | [], cdict, queue => (cdict, queue)
  | parent :: rest, cdict, queue =>
    if (alookup cdict parent).isSome then expandParents pp rest cdict queue
    else expandParents pp rest (cdict ++ [(parent, pp ++ "P")]) (queue ++ [parent])

/-- The spouse step of `connections` (kinship.py lines 70-74): the spouse
is visited only when the current path code has no spouse-step yet and the
spouse is not already in the dictionary. -/
def expandSpouse (pp : String) (sp : Option String) (cdict : List (String × String))
    (queue : List String) : List (String × String) × List String :=
  match sp with
  | none => (cdict, queue)
  | some spouse =>
    if hasS pp then (cdict, queue)
    else if (alookup cdict spouse).isSome then (cdict, queue)
    else (cdict ++ [(spouse, pp ++ "S")], queue ++ [spouse])

/-- One dequeue step of the BFS body: expand the parents of the popped
person, then the spouse.  A name that does not resolve in the family has
no parents or spouse to offer (after `Family.__init__` every stored
reference resolves, so this case never fires on constructed families). -/
def stepExpand (fam : Family) (person pp : String) (cdict : List (String × String))
    (queue : List String) : List (String × String) × List String :=
  match alookup fam.people person with
  | none => (cdict, queue)
  | some p =>
    let cq := expandParents pp p.parents cdict queue
    expandSpouse pp p.spouse cq.1 cq.2

/-- The `while len(queue) > 0` loop of `Person.connections`
(kinship.py lines 63-74), with explicit fuel.  `none` means the fuel ran
out or a queued name was missing from the dictionary; `connFuel` below is
proved to make both impossible. -/
def connectionsAux (fam : Family) : Nat → List String → List (String × String) →
    Option (List (String × String))
  | 0, _, _ => none
  | _ + 1, [], cdict => some cdict
  | fuel + 1, person :: rest, cdict =>
    match alookup cdict person with
    | none => none
    | some personpath =>
      let cq := stepExpand fam person personpath cdict rest
      connectionsAux fam fuel cq.2 cq.1

/-- All names referenced as a parent or spouse by any person of the
family; the universe from which BFS can ever draw a new dictionary key. -/
def refNames : List (String × Person) → List String
  | [] => []
  | e :: rest => e.2.parents ++ e.2.spouse.toList ++ refNames rest

/-- Fuel that always suffices for the BFS: one dequeue per possible
dictionary entry, plus one final step to observe the empty queue. -/
def connFuel (fam : Family) (start : String) : Nat :=
  (start :: refNames fam.people).length + 1

/-- `Person.connections` (kinship.py lines 52-75): breadth-first search
from `self`, producing the dictionary from each reachable person to its
path code; `self` is mapped to the empty code. -/
def Person.connections (fam : Family) (self : Person) : List (String × String) :=
  (connectionsAux fam (connFuel fam self.name) [self.name] [(self.name, "")]).getD []

/-- Modelled from the spec: the `relationships` module imported by
kinship.py is not part of the repository sources.  Per spec section 4.4 it
is a fixed read-only mapping from combined path-code strings to a pair of
gender-specific kinship terms; the concrete entries here are the ones the
spec exhibits (sections 4.4 and 8): parent, child, sibling and aunt/uncle
keys.  Any key not present falls back to the generic term inside
`relation_to` itself. -/
def relationships : List (String × (String × String)) :=
  [((":P"), (("father"), ("mother"))),
   (("P:"), (("son"), ("daughter"))),
   (("P:P"), (("brother"), ("sister"))),
   (("P:S"), (("uncle"), ("aunt")))]

/-- Modelled from the spec: a table entry is a male/female pair of terms
and the querying individual's gender selects which side is returned. -/
def selectGender (entry : String × String) (gender : String) : String :=
  if gender = ("M") then entry.1 else entry.2

/-- Python's `<` on strings, specialised to lists of characters: strict
lexicographic comparison by code point.  Written as a structural boolean
function so that concrete instances evaluate inside the kernel; it is
proved below to agree with Mathlib's lexicographic order. -/
def listLtb : List Char → List Char → Bool
  | [], [] => false
  | [], _ :: _ => true
  | _ :: _, [] => false
  | a :: as, b :: bs => if a = b then listLtb as bs else decide (a < b)

/-- Python's `<` on strings: plain lexicographic comparison of the
character sequences (not length-first). -/
def strLtb (a b : String) : Bool := listLtb a.data b.data

/-- Python's `min` over a list of strings, keeping the first minimum; on
the empty list the Python call would raise, but `relation_to` only
applies it to a non-empty list. -/
def pymin : List String → String
  | [] => ""
  | x :: xs => xs.foldl (fun m y => if strLtb y m then y else m) x

/-- The shared reachable individuals of `relation_to` (kinship.py line
89): the keys of A's connection dictionary that also appear in B's.  The
Python set intersection is order-insensitive; this list realises it in
A's key order, which is irrelevant to the minimum taken later. -/
def sharedOf (fam : Family) (a b : Person) : List String :=
  ((Person.connections fam a).map Prod.fst).filter
    (fun n => (alookup (Person.connections fam b) n).isSome)

/-- The combined key `path1 + ":" + path2` formed for a shared person
(kinship.py lines 94-96). -/
def combinedKey (fam : Family) (a b : Person) (n : String) : String :=
  ((alookup (Person.connections fam a) n).getD ("")) ++ (":") ++
    ((alookup (Person.connections fam b) n).getD (""))

/-- The list `combined_paths` of `relation_to` (kinship.py lines 92-97). -/
def combinedOf (fam : Family) (a b : Person) : List String :=
  (sharedOf fam a b).map (combinedKey fam a b)

/-- The selected minimum combined key `lcr_path` (kinship.py line 98). -/
def lcrOf (fam : Family) (a b : Person) : String :=
  pymin (combinedOf fam a b)

/-- The shared persons whose combined key attains the selected minimum:
the candidates for the "lowest common relative" the program picked. -/
def lcrPersonsOf (fam : Family) (a b : Person) : List String :=
  (sharedOf fam a b).filter (fun c => combinedKey fam a b c = lcrOf fam a b)

/-- `Person.relation_to` (kinship.py lines 77-103): `none` when the two
connection dictionaries share no key, otherwise the kinship-table entry
for the minimum combined key under the caller's gender, falling back to
the generic term when the key is unmapped. -/
def Person.relation_to (fam : Family) (self relation : Person) : Option String :=
  if sharedOf fam self relation = [] then none
  else
    match alookup relationships (lcrOf fam self relation) with
    | some entry => some (selectGender entry self.gender)
    | none => some ("distant relative")

/-- The structured family description consumed by `Family.__init__`
(kinship.py lines 112-139): genders by name, ordered parent names by
child name, and couple pairs. -/
structure FamilyDesc where
  individuals : List (String × String)
  parents : List (String × List String)
  couples : List (String × String)

/-- Construction-time failure: a referenced name is absent from the
`individuals` mapping (a Python `KeyError`; the spec's
`UnknownIndividual`). -/
inductive BuildError where
  | unknownIndividual : String → BuildError
deriving DecidableEq

/-- Replace the person stored under `target` with `f` of it; the
embedding of mutating the person object held by the dictionary. -/
def updAt (ppl : List (String × Person)) (target : String) (f : Person → Person) :
    List (String × Person) :=
  ppl.map (fun e => if e.1 = target then (e.1, f e.2) else e)

/-- The inner `for parent_name in parent_names` loop of `Family.__init__`
(kinship.py lines 131-133): resolve each parent name (failing on an
unknown one) and append it to the child's parent list. -/
def addParentList (cname : String) : List (String × Person) → List String →
    Except BuildError (List (String × Person))
  | ppl, [] => Except.ok ppl
  | ppl, pn :: rest =>
    match alookup ppl pn with
    | none => Except.error (BuildError.unknownIndividual pn)
    | some _ =>
      addParentList cname (updAt ppl cname (fun q => { q with parents := q.parents ++ [pn] })) rest

/-- The `for person_name, parent_names in parents.items()` loop of
`Family.__init__` (kinship.py lines 129-133). -/
def addParentsAll : List (String × Person) → List (String × List String) →
    Except BuildError (List (String × Person))
  | ppl, [] => Except.ok ppl
  | ppl, (person_name, parent_names) :: rest =>
    match alookup ppl person_name with
    | none => Except.error (BuildError.unknownIndividual person_name)
    | some _ =>
      match addParentList person_name ppl parent_names with
      | Except.error e => Except.error e
      | Except.ok ppl' => addParentsAll ppl' rest

/-- The `for couple in couples` loop of `Family.__init__` (kinship.py
lines 135-139): resolve both names and set each as the other's spouse. -/
def addCouplesAll : List (String × Person) → List (String × String) →
    Except BuildError (List (String × Person))
  | ppl, [] => Except.ok ppl
  | ppl, (n1, n2) :: rest =>
    match alookup ppl n1 with
    | none => Except.error (BuildError.unknownIndividual n1)
    | some _ =>
      match alookup ppl n2 with
      | none => Except.error (BuildError.unknownIndividual n2)
      | some _ =>
        addCouplesAll
          (updAt (updAt ppl n1 (fun q => { q with spouse := some n2 })) n2
            (fun q => { q with spouse := some n1 })) rest

/-- `Family.__init__` (kinship.py lines 112-139): build one person per
individual entry, then resolve parent links, then couple links; any
unresolved name aborts construction with an error before a family value
exists. -/
def Family.init (d : FamilyDesc) : Except BuildError Family :=
  let people0 := d.individuals.map (fun e => (e.1, Person.mk e.1 e.2 [] none))
  match addParentsAll people0 d.parents with
  | Except.error e => Except.error e
  | Except.ok p1 =>
    match addCouplesAll p1 d.couples with
    | Except.error e => Except.error e
    | Except.ok p2 => Except.ok (Family.mk p2)

/-- Querying with a name absent from the people dictionary dereferences
Python's `None` (an `AttributeError`). -/
inductive RunError where
  | noneTypeError : RunError
deriving DecidableEq

/-- `Family.relation` (kinship.py lines 141-153): fetch both persons with
`dict.get` (yielding `None` for an unknown name) and call `relation_to`;
an unknown name on either side makes the call raise. -/
def Family.relation (fam : Family) (name1 name2 : String) :
    Except RunError (Option String) :=
  match alookup fam.people name1, alookup fam.people name2 with
  | some person1, some person2 => Except.ok (Person.relation_to fam person1 person2)
  | _, _ => Except.error RunError.noneTypeError

/-- Does the character sequence `code` describe an actual walk through
the family graph from `x` to `y`, stepping to a parent on 'P' and to the
spouse on 'S'?  This is the independent notion of path used to check the
spec's shortest-path assertion. -/
def isPathB (fam : Family) : String → List Char → String → Bool
  | x, [], y => x == y
  | x, c :: cs, y =>
    match alookup fam.people x with
    | none => false
    | some p =>
      if c = 'P' then p.parents.any (fun par => isPathB fam par cs y)
      else if c = 'S' then
        match p.spouse with
        | some sp => isPathB fam sp cs y
        | none => false
      else false

/-! ### Concrete families used as witnesses and counterexamples -/

/-- Spec section 8, scenario 1: Alice and Bob are a couple, Carol their
child. -/
def s1fam : Family := Family.mk
  [(("Alice"), Person.mk ("Alice") ("F") [] (some ("Bob"))),
   (("Bob"), Person.mk ("Bob") ("M") [] (some ("Alice"))),
   (("Carol"), Person.mk ("Carol") ("F") [("Alice"), ("Bob")] none)]

def s1Alice : Person := Person.mk ("Alice") ("F") [] (some ("Bob"))

def s1Carol : Person := Person.mk ("Carol") ("F") [("Alice"), ("Bob")] none

/-- Spec section 8, scenario 3: a grandparent chain G - P1 - C. -/
def s3fam : Family := Family.mk
  [(("G"), Person.mk ("G") ("F") [] none),
   (("P1"), Person.mk ("P1") ("M") [("G")] none),
   (("C"), Person.mk ("C") ("F") [("P1")] none)]

def s3G : Person := Person.mk ("G") ("F") [] none

def s3C : Person := Person.mk ("C") ("F") [("P1")] none

/-- A family on which the BFS misses a shortest path: z is first found
through the spouse edge (code "SP"), which freezes its spouse w out of
the spouse expansion; w is later reached by a five-step parent chain even
though the four-step walk parent-parent-parent-spouse reaches it. -/
def exFam : Family := Family.mk
  [(("X"), Person.mk ("X") ("M") [("a")] (some ("b"))),
   (("a"), Person.mk ("a") ("F") [("c")] none),
   (("b"), Person.mk ("b") ("F") [("z")] (some ("X"))),
   (("c"), Person.mk ("c") ("M") [("z"), ("d")] none),
   (("d"), Person.mk ("d") ("F") [("e")] none),
   (("e"), Person.mk ("e") ("M") [("w")] none),
   (("z"), Person.mk ("z") ("F") [] (some ("w"))),
   (("w"), Person.mk ("w") ("M") [] (some ("z")))]

def exX : Person := Person.mk ("X") ("M") [("a")] (some ("b"))

/-- A family on which the selected lowest common relative differs between
the two query directions: querying A then B picks C1 (key "P:SP"),
querying B then A picks B itself (key ":PP"). -/
def c6fam : Family := Family.mk
  [(("A"), Person.mk ("A") ("F") [("C1"), ("p")] none),
   (("B"), Person.mk ("B") ("M") [] (some ("s"))),
   (("C1"), Person.mk ("C1") ("F") [] none),
   (("p"), Person.mk ("p") ("M") [("B")] none),
   (("s"), Person.mk ("s") ("F") [("C1")] (some ("B")))]

def c6A : Person := Person.mk ("A") ("F") [("C1"), ("p")] none

def c6B : Person := Person.mk ("B") ("M") [] (some ("s"))

/-- A family whose parent links form a cycle (A and B are each other's
parent), violating the spec's acyclicity assumption. -/
def cycFam : Family := Family.mk
  [(("A"), Person.mk ("A") ("F") [("B")] none),
   (("B"), Person.mk ("B") ("M") [("A")] none)]

def cycA : Person := Person.mk ("A") ("F") [("B")] none

/-- A description whose parent section references the unknown name B. -/
def badDesc : FamilyDesc := FamilyDesc.mk [(("A"), ("F"))] [(("A"), [("B")])] []

/-! ### Association-list lemmas -/

theorem alookup_isSome_iff {α : Type} (m : List (String × α)) (n : String) :
    (alookup m n).isSome = true ↔ n ∈ m.map Prod.fst := by
  induction m with
  | nil => simp [alookup]
  | cons e rest ih =>
    by_cases h : e.1 = n
    · subst h
      simp [alookup]
    · simp [alookup, h, ih, Ne.symm h]

theorem alookup_eq_none_iff {α : Type} (m : List (String × α)) (n : String) :
    alookup m n = none ↔ ¬ n ∈ m.map Prod.fst := by
  rw [← alookup_isSome_iff]
  cases alookup m n <;> simp

theorem alookup_mem {α : Type} (m : List (String × α)) (n : String) (v : α)
    (h : alookup m n = some v) : (n, v) ∈ m := by
  induction m with
  | nil => simp [alookup] at h
  | cons e rest ih =>
    by_cases he : e.1 = n
    · simp only [alookup, he, if_pos] at h
      cases h
      have he2 : e = (n, e.2) := by
        cases e
        simp_all
      rw [he2]
      exact List.mem_cons_self _ _
    · simp only [alookup, he, if_neg, not_false_iff] at h
      right
      exact ih h

theorem alookup_append_left {α : Type} (m m' : List (String × α)) (n : String) (v : α)
    (h : alookup m n = some v) : alookup (m ++ m') n = some v := by
  induction m with
  | nil => simp [alookup] at h
  | cons e rest ih =>
    by_cases he : e.1 = n
    · simp_all [alookup]
    · simp_all [alookup]

theorem alookup_append_isSome {α : Type} (m m' : List (String × α)) (n : String)
    (h : (alookup m n).isSome = true) : (alookup (m ++ m') n).isSome = true := by
  cases hv : alookup m n with
  | none => rw [hv] at h; simp at h
  | some v => rw [alookup_append_left m m' n v hv]; rfl

theorem mem_keys_of_alookup {α : Type} (m : List (String × α)) (n : String) (v : α)
    (h : alookup m n = some v) : n ∈ m.map Prod.fst := by
  rw [← alookup_isSome_iff, h]
  rfl

theorem alookup_isSome_of_mem_keys {α : Type} (m : List (String × α)) (n : String)
    (h : n ∈ m.map Prod.fst) : (alookup m n).isSome = true :=
  (alookup_isSome_iff m n).mpr h

theorem alookup_isSome_exists {α : Type} (m : List (String × α)) (n : String)
    (h : (alookup m n).isSome = true) : ∃ v, alookup m n = some v := by
  cases hv : alookup m n with
  | none => rw [hv] at h; simp at h
  | some v => exact ⟨v, rfl⟩

/-! ### The string comparison agrees with the lexicographic order -/

theorem listLtb_iff_lex (x y : List Char) :
    listLtb x y = true ↔ List.Lex (· < ·) x y := by
  induction x generalizing y with
  | nil =>
    cases y with
    | nil => simp [listLtb]
    | cons b bs => simp [listLtb, List.Lex.nil]
  | cons a as ih =>
    cases y with
    | nil =>
      simp only [listLtb, Bool.false_eq_true, false_iff]
      intro h
      cases h
    | cons b bs =>
      by_cases hab : a = b
      · subst hab
        have hred : listLtb (a :: as) (a :: bs) = listLtb as bs := by
          simp [listLtb]
        rw [hred, ih]
        exact (@List.Lex.cons_iff Char (· < ·) _ a as bs).symm
      · simp only [listLtb, if_neg hab, decide_eq_true_eq]
        constructor
        · intro h
          exact List.Lex.rel h
        · intro h
          cases h with
          | cons h' => exact absurd rfl hab
          | rel h' => exact h'

theorem strLtb_iff_lt (a b : String) : strLtb a b = true ↔ a < b := by
  rw [strLtb, listLtb_iff_lex]
  exact String.lt_iff_toList_lt.symm

theorem strLtb_false_le (a b : String) (h : strLtb a b = false) : b ≤ a := by
  apply not_lt.mp
  intro hlt
  rw [← strLtb_iff_lt a b] at hlt
  rw [h] at hlt
  cases hlt

/-! ### Properties of the minimum selection -/

theorem pymin_foldl_mem (xs : List String) : ∀ m : String,
    xs.foldl (fun m y => if strLtb y m then y else m) m ∈ m :: xs := by
  induction xs with
  | nil => intro m; simp
  | cons y ys ih =>
    intro m
    simp only [List.foldl_cons]
    by_cases hc : strLtb y m = true
    · rw [if_pos hc]
      rcases List.mem_cons.mp (ih y) with h | h
      · rw [h]
        exact List.mem_cons_of_mem _ (List.mem_cons_self _ _)
      · exact List.mem_cons_of_mem _ (List.mem_cons_of_mem _ h)
    · rw [if_neg hc]
      rcases List.mem_cons.mp (ih m) with h | h
      · rw [h]
        exact List.mem_cons_self _ _
      · exact List.mem_cons_of_mem _ (List.mem_cons_of_mem _ h)

theorem pymin_mem (l : List String) (h : l ≠ []) : pymin l ∈ l := by
  cases l with
  | nil => exact absurd rfl h
  | cons x xs => exact pymin_foldl_mem xs x

theorem pymin_foldl_le (xs : List String) : ∀ m : String,
    xs.foldl (fun m y => if strLtb y m then y else m) m ≤ m ∧
      ∀ y ∈ xs, xs.foldl (fun m y => if strLtb y m then y else m) m ≤ y := by
  induction xs with
  | nil => intro m; exact ⟨le_refl m, by simp⟩
  | cons y ys ih =>
    intro m
    simp only [List.foldl_cons]
    by_cases hc : strLtb y m = true
    · rw [if_pos hc]
      obtain ⟨h1, h2⟩ := ih y
      have hym : y ≤ m := le_of_lt ((strLtb_iff_lt y m).mp hc)
      refine ⟨le_trans h1 hym, ?_⟩
      intro z hz
      rcases List.mem_cons.mp hz with hz2 | hz2
      · rw [hz2]
        exact h1
      · exact h2 z hz2
    · rw [if_neg hc]
      obtain ⟨h1, h2⟩ := ih m
      have hf : strLtb y m = false := by
        revert hc
        cases strLtb y m <;> simp
      have hmy : m ≤ y := strLtb_false_le y m hf
      refine ⟨h1, ?_⟩
      intro z hz
      rcases List.mem_cons.mp hz with hz2 | hz2
      · rw [hz2]
        exact le_trans h1 hmy
      · exact h2 z hz2

theorem pymin_le (l : List String) (y : String) (hy : y ∈ l) : pymin l ≤ y := by
  cases l with
  | nil => cases hy
  | cons x xs =>
    rcases List.mem_cons.mp hy with hy2 | hy2
    · rw [hy2]
      exact (pymin_foldl_le xs x).1
    · exact (pymin_foldl_le xs x).2 y hy2

theorem pymin_eq_of_le (l : List String) (k : String) (hmem : k ∈ l)
    (hle : ∀ y ∈ l, k ≤ y) : pymin l = k := by
  have h1 : pymin l ≤ k := pymin_le l k hmem
  have h2 : k ≤ pymin l := hle _ (pymin_mem l (by rintro rfl; cases hmem))
  exact le_antisymm h1 h2

/-! ### Characterising one BFS expansion step -/

theorem mem_refNames_of_parents : ∀ (ppl : List (String × Person)) (e : String × Person),
    e ∈ ppl → ∀ x ∈ e.2.parents, x ∈ refNames ppl := by
  intro ppl
  induction ppl with
  | nil => intro e he; cases he
  | cons f rest ih =>
    intro e he x hx
    rcases List.mem_cons.mp he with he2 | he2
    · subst he2
      exact List.mem_append.mpr (Or.inl (List.mem_append.mpr (Or.inl hx)))
    · exact List.mem_append.mpr (Or.inr (ih e he2 x hx))

theorem mem_refNames_of_spouse : ∀ (ppl : List (String × Person)) (e : String × Person),
    e ∈ ppl → ∀ s, e.2.spouse = some s → s ∈ refNames ppl := by
  intro ppl
  induction ppl with
  | nil => intro e he; cases he
  | cons f rest ih =>
    intro e he s hs
    rcases List.mem_cons.mp he with he2 | he2
    · subst he2
      refine List.mem_append.mpr (Or.inl (List.mem_append.mpr (Or.inr ?_)))
      rw [hs]
      exact List.mem_cons_self _ _
    · exact List.mem_append.mpr (Or.inr (ih e he2 s hs))

theorem expandParents_spec (pp : String) : ∀ (parents : List String)
    (cdict : List (String × String)) (queue : List String),
    ((cdict.map Prod.fst).Nodup) →
    ∃ delta : List (String × String),
      expandParents pp parents cdict queue = (cdict ++ delta, queue ++ delta.map Prod.fst) ∧
      (((cdict ++ delta).map Prod.fst).Nodup) ∧
      ∀ e ∈ delta, e.1 ∈ parents ∧ e.2 = pp ++ ("P") := by
  intro parents
  induction parents with
  | nil =>
    intro cdict queue hnd
    exact ⟨[], by simp [expandParents], by simpa using hnd, by simp⟩
  | cons pn rest ih =>
    intro cdict queue hnd
    by_cases hl : (alookup cdict pn).isSome = true
    · have heq : expandParents pp (pn :: rest) cdict queue =
          expandParents pp rest cdict queue := by
        simp [expandParents, hl]
      obtain ⟨delta, h1, h2, h3⟩ := ih cdict queue hnd
      exact ⟨delta, heq ▸ h1, h2,
        fun e he => ⟨List.mem_cons_of_mem _ (h3 e he).1, (h3 e he).2⟩⟩
    · have heq : expandParents pp (pn :: rest) cdict queue =
          expandParents pp rest (cdict ++ [(pn, pp ++ ("P"))]) (queue ++ [pn]) := by
        simp [expandParents, hl]
      have hpn : ¬ pn ∈ cdict.map Prod.fst := by
        intro hmem
        exact hl (alookup_isSome_of_mem_keys _ _ hmem)
      have hnd2 : (((cdict ++ [(pn, pp ++ ("P"))]).map Prod.fst)).Nodup := by
        rw [List.map_append]
        simp [List.nodup_append, hnd, hpn]
      obtain ⟨delta, h1, h2, h3⟩ := ih (cdict ++ [(pn, pp ++ ("P"))]) (queue ++ [pn]) hnd2
      refine ⟨(pn, pp ++ ("P")) :: delta, ?_, ?_, ?_⟩
      · rw [heq, h1]
        have e1 : (cdict ++ [(pn, pp ++ ("P"))]) ++ delta =
            cdict ++ ((pn, pp ++ ("P")) :: delta) := by
          simp
        have e2 : (queue ++ [pn]) ++ delta.map Prod.fst =
            queue ++ (((pn, pp ++ ("P")) :: delta).map Prod.fst) := by
          simp
        rw [e1, e2]
      · have e1 : (cdict ++ [(pn, pp ++ ("P"))]) ++ delta =
            cdict ++ ((pn, pp ++ ("P")) :: delta) := by
          simp
        rw [e1] at h2
        exact h2
      · intro e he
        rcases List.mem_cons.mp he with he2 | he2
        · rw [he2]
          exact ⟨List.mem_cons_self _ _, rfl⟩
        · exact ⟨List.mem_cons_of_mem _ (h3 e he2).1, (h3 e he2).2⟩

theorem expandSpouse_spec (pp : String) (sp : Option String)
    (cdict : List (String × String)) (queue : List String)
    (hnd : (cdict.map Prod.fst).Nodup) :
    ∃ delta : List (String × String),
      expandSpouse pp sp cdict queue = (cdict ++ delta, queue ++ delta.map Prod.fst) ∧
      (((cdict ++ delta).map Prod.fst).Nodup) ∧
      ∀ e ∈ delta, sp = some e.1 ∧ e.2 = pp ++ ("S") ∧ hasS pp = false := by
  cases sp with
  | none => exact ⟨[], by simp [expandSpouse], by simpa using hnd, by simp⟩
  | some spouse =>
    by_cases hS : hasS pp = true
    · exact ⟨[], by simp [expandSpouse, hS], by simpa using hnd, by simp⟩
    · have hSf : hasS pp = false := by
        revert hS
        cases hasS pp <;> simp
      by_cases hl : (alookup cdict spouse).isSome = true
      · exact ⟨[], by simp [expandSpouse, hSf, hl], by simpa using hnd, by simp⟩
      · have hsm : ¬ spouse ∈ cdict.map Prod.fst := by
          intro hmem
          exact hl (alookup_isSome_of_mem_keys _ _ hmem)
        refine ⟨[(spouse, pp ++ ("S"))], by simp [expandSpouse, hSf, hl], ?_, ?_⟩
        · rw [List.map_append]
          simp [List.nodup_append, hnd, hsm]
        · intro e he
          rcases List.mem_cons.mp he with he2 | he2
          · rw [he2]
            exact ⟨rfl, rfl, hSf⟩
          · cases he2

theorem stepExpand_spec (fam : Family) (person pp : String)
    (cdict : List (String × String)) (queue : List String)
    (hnd : (cdict.map Prod.fst).Nodup) :
    ∃ delta : List (String × String),
      stepExpand fam person pp cdict queue = (cdict ++ delta, queue ++ delta.map Prod.fst) ∧
      (((cdict ++ delta).map Prod.fst).Nodup) ∧
      ∀ e ∈ delta, ∃ pr, alookup fam.people person = some pr ∧
        ((e.1 ∈ pr.parents ∧ e.2 = pp ++ ("P")) ∨
         (pr.spouse = some e.1 ∧ e.2 = pp ++ ("S") ∧ hasS pp = false)) := by
  cases hfp : alookup fam.people person with
  | none => exact ⟨[], by simp [stepExpand, hfp], by simpa using hnd, by simp⟩
  | some pr =>
    obtain ⟨d1, e1, n1, p1⟩ := expandParents_spec pp pr.parents cdict queue hnd
    obtain ⟨d2, e2, n2, p2⟩ :=
      expandSpouse_spec pp pr.spouse (cdict ++ d1) (queue ++ d1.map Prod.fst) n1
    refine ⟨d1 ++ d2, ?_, ?_, ?_⟩
    · have hstep : stepExpand fam person pp cdict queue =
          expandSpouse pp pr.spouse (expandParents pp pr.parents cdict queue).1
            (expandParents pp pr.parents cdict queue).2 := by
        simp [stepExpand, hfp]
      rw [hstep, e1]
      simp only
      rw [e2]
      have q1 : (cdict ++ d1) ++ d2 = cdict ++ (d1 ++ d2) := List.append_assoc _ _ _
      have q2 : (queue ++ d1.map Prod.fst) ++ d2.map Prod.fst =
          queue ++ ((d1 ++ d2).map Prod.fst) := by
        rw [List.map_append, ← List.append_assoc]
      rw [q1, q2]
    · rw [← List.append_assoc]
      exact n2
    · intro e he
      rcases List.mem_append.mp he with h | h
      · exact ⟨pr, rfl, Or.inl (p1 e h)⟩
      · obtain ⟨hsp, hval, hS⟩ := p2 e h
        exact ⟨pr, rfl, Or.inr ⟨hsp, hval, hS⟩⟩

theorem keys_length_le (cdict : List (String × String)) (U : List String)
    (hnd : (cdict.map Prod.fst).Nodup) (hsub : ∀ e ∈ cdict, e.1 ∈ U) :
    cdict.length ≤ U.length := by
  have h1 : (cdict.map Prod.fst).length = cdict.length := List.length_map _ _
  rw [← h1]
  have hsub2 : cdict.map Prod.fst ⊆ U := by
    intro x hx
    obtain ⟨e, he, hex⟩ := List.mem_map.mp hx
    rw [← hex]
    exact hsub e he
  calc (cdict.map Prod.fst).length = (cdict.map Prod.fst).toFinset.card :=
        (List.toFinset_card_of_nodup hnd).symm
    _ ≤ U.toFinset.card :=
        Finset.card_le_card (fun x hx => List.mem_toFinset.mpr (hsub2 (List.mem_toFinset.mp hx)))
    _ ≤ U.length := U.toFinset_card_le

/-! ### The master BFS lemma: with enough fuel the loop finishes, only
appends entries, and every entry satisfies any predicate closed under the
two expansion rules. -/

theorem connectionsAux_total (fam : Family) (U : List String)
    (hU : ∀ n ∈ refNames fam.people, n ∈ U)
    (V : String → String → Prop)
    (hPar : ∀ person pp pr parent, V person pp → alookup fam.people person = some pr →
      parent ∈ pr.parents → V parent (pp ++ ("P")))
    (hSp : ∀ person pp pr sp, V person pp → alookup fam.people person = some pr →
      pr.spouse = some sp → hasS pp = false → V sp (pp ++ ("S"))) :
    ∀ (fuel : Nat) (queue : List String) (cdict : List (String × String)),
    (∀ q ∈ queue, q ∈ cdict.map Prod.fst) →
    ((cdict.map Prod.fst).Nodup) →
    (∀ e ∈ cdict, V e.1 e.2) →
    (∀ e ∈ cdict, e.1 ∈ U) →
    queue.length + U.length < fuel + cdict.length →
    ∃ ext, connectionsAux fam fuel queue cdict = some (cdict ++ ext) ∧
      (∀ e ∈ cdict ++ ext, V e.1 e.2) := by
  intro fuel
  induction fuel with
  | zero =>
    intro queue cdict hq hnd hV hUc hm
    exfalso
    have hlen := keys_length_le cdict U hnd hUc
    omega
  | succ fuel ih =>
    intro queue cdict hq hnd hV hUc hm
    cases queue with
    | nil =>
      refine ⟨[], by simp [connectionsAux], ?_⟩
      simpa using hV
    | cons person rest =>
      have hp : person ∈ cdict.map Prod.fst := hq person (List.mem_cons_self _ _)
      obtain ⟨pp, hpp⟩ := alookup_isSome_exists cdict person (alookup_isSome_of_mem_keys _ _ hp)
      obtain ⟨delta, he, hnd2, hjust⟩ := stepExpand_spec fam person pp cdict rest hnd
      have hVpp : V person pp := hV _ (alookup_mem _ _ _ hpp)
      have hVd : ∀ e ∈ cdict ++ delta, V e.1 e.2 := by
        intro e hecd
        rcases List.mem_append.mp hecd with h | h
        · exact hV e h
        · obtain ⟨pr, hpr, hcase⟩ := hjust e h
          rcases hcase with ⟨hmem, hval⟩ | ⟨hsp, hval, hS⟩
          · rw [hval]
            exact hPar person pp pr e.1 hVpp hpr hmem
          · rw [hval]
            exact hSp person pp pr e.1 hVpp hpr hsp hS
      have hUd : ∀ e ∈ cdict ++ delta, e.1 ∈ U := by
        intro e hecd
        rcases List.mem_append.mp hecd with h | h
        · exact hUc e h
        · obtain ⟨pr, hpr, hcase⟩ := hjust e h
          rcases hcase with ⟨hmem, _⟩ | ⟨hsp, _, _⟩
          · exact hU _ (mem_refNames_of_parents fam.people (person, pr)
              (alookup_mem _ _ _ hpr) e.1 hmem)
          · exact hU _ (mem_refNames_of_spouse fam.people (person, pr)
              (alookup_mem _ _ _ hpr) e.1 hsp)
      have hqd : ∀ q ∈ rest ++ delta.map Prod.fst, q ∈ (cdict ++ delta).map Prod.fst := by
        intro q hqm
        rw [List.map_append]
        rcases List.mem_append.mp hqm with h | h
        · exact List.mem_append.mpr (Or.inl (hq q (List.mem_cons_of_mem _ h)))
        · exact List.mem_append.mpr (Or.inr h)
      have hm2 : (rest ++ delta.map Prod.fst).length + U.length <
          fuel + (cdict ++ delta).length := by
        simp only [List.length_append, List.length_map, List.length_cons] at *
        omega
      obtain ⟨ext, hrec, hVr⟩ := ih (rest ++ delta.map Prod.fst) (cdict ++ delta) hqd hnd2 hVd hUd hm2
      refine ⟨delta ++ ext, ?_, ?_⟩
      · have hred : connectionsAux fam (fuel + 1) (person :: rest) cdict =
            connectionsAux fam fuel (stepExpand fam person pp cdict rest).2
              (stepExpand fam person pp cdict rest).1 := by
          simp [connectionsAux, hpp]
        rw [hred, he]
        simp only
        rw [hrec, List.append_assoc]
      · rw [← List.append_assoc]
        exact hVr

/-! ### Consequences for `Person.connections` -/

theorem connections_spec (fam : Family) (p : Person) (V : String → String → Prop)
    (hPar : ∀ person pp pr parent, V person pp → alookup fam.people person = some pr →
      parent ∈ pr.parents → V parent (pp ++ ("P")))
    (hSp : ∀ person pp pr sp, V person pp → alookup fam.people person = some pr →
      pr.spouse = some sp → hasS pp = false → V sp (pp ++ ("S")))
    (hstart : V p.name ("")) :
    connectionsAux fam (connFuel fam p.name) [p.name] [(p.name, (""))] =
      some (Person.connections fam p) ∧
    (∀ e ∈ Person.connections fam p, V e.1 e.2) ∧
    alookup (Person.connections fam p) p.name = some ("") := by
  obtain ⟨ext, haux, hV⟩ := connectionsAux_total fam (p.name :: refNames fam.people)
    (fun n hn => List.mem_cons_of_mem _ hn) V hPar hSp
    (connFuel fam p.name) [p.name] [(p.name, (""))]
    (by
      intro q hq
      rcases List.mem_cons.mp hq with h | h
      · rw [h]
        simp
      · cases h)
    (by simp)
    (by
      intro e he
      rcases List.mem_cons.mp he with h | h
      · rw [h]
        exact hstart
      · cases h)
    (by
      intro e he
      rcases List.mem_cons.mp he with h | h
      · rw [h]
        exact List.mem_cons_self _ _
      · cases h)
    (by
      simp [connFuel]
      omega)
  have hconn : Person.connections fam p = [(p.name, (""))] ++ ext := by
    rw [Person.connections, haux]
    rfl
  refine ⟨?_, ?_, ?_⟩
  · rw [hconn]
    exact haux
  · rw [hconn]
    exact hV
  · rw [hconn]
    exact alookup_append_left _ _ _ _ (by simp [alookup])

theorem str_data_append (s t : String) : (s ++ t).data = s.data ++ t.data := by
  cases s
  cases t
  rfl

theorem countS_append_P (pp : String) : (pp ++ ("P")).data.count 'S' = pp.data.count 'S' := by
  rw [str_data_append]
  simp

theorem countS_append_S (pp : String) : (pp ++ ("S")).data.count 'S' = pp.data.count 'S' + 1 := by
  rw [str_data_append]
  simp

theorem hasS_false_count (pp : String) (h : hasS pp = false) : pp.data.count 'S' = 0 := by
  rw [List.count_eq_zero]
  intro hmem
  rw [hasS] at h
  have : pp.data.contains 'S' = true := List.elem_eq_true_of_mem hmem
  rw [this] at h
  cases h

/-- Appending a parent step to a realised walk. -/
theorem isPathB_snoc_parent (fam : Family) (m : String) (pr : Person)
    (hpr : alookup fam.people m = some pr) (y : String) (hy : y ∈ pr.parents) :
    ∀ (cs : List Char) (x : String), isPathB fam x cs m = true →
      isPathB fam x (cs ++ ['P']) y = true := by
  intro cs
  induction cs with
  | nil =>
    intro x hpath
    have hxm : x = m := by simpa [isPathB] using hpath
    subst hxm
    simp only [List.nil_append, isPathB, hpr, if_pos rfl]
    exact List.any_eq_true.mpr ⟨y, hy, by simp [isPathB]⟩
  | cons c cs ih =>
    intro x hpath
    rw [List.cons_append]
    cases hax : alookup fam.people x with
    | none =>
      rw [isPathB, hax] at hpath
      cases hpath
    | some p =>
      by_cases hc : c = 'P'
      · subst hc
        rw [isPathB, hax] at hpath
        simp only [if_pos rfl] at hpath
        obtain ⟨par, hparm, hpp⟩ := List.any_eq_true.mp hpath
        rw [isPathB, hax]
        simp only [if_pos rfl]
        exact List.any_eq_true.mpr ⟨par, hparm, ih par hpp⟩
      · by_cases hcs : c = 'S'
        · subst hcs
          rw [isPathB, hax] at hpath
          simp only [if_neg hc] at hpath
          rw [isPathB, hax]
          simp only [if_neg hc, if_pos rfl]
          cases hspo : p.spouse with
          | none =>
            rw [hspo] at hpath
            simp at hpath
          | some sp =>
            rw [hspo] at hpath
            simp only [if_pos rfl] at hpath
            exact ih sp hpath
        · rw [isPathB, hax] at hpath
          simp only [if_neg hc, if_neg hcs] at hpath
          cases hpath

/-- Appending a spouse step to a realised walk. -/
theorem isPathB_snoc_spouse (fam : Family) (m : String) (pr : Person)
    (hpr : alookup fam.people m = some pr) (y : String) (hy : pr.spouse = some y) :
    ∀ (cs : List Char) (x : String), isPathB fam x cs m = true →
      isPathB fam x (cs ++ ['S']) y = true := by
  intro cs
  induction cs with
  | nil =>
    intro x hpath
    have hxm : x = m := by simpa [isPathB] using hpath
    subst hxm
    simp only [List.nil_append, isPathB, hpr]
    have hps : ('S' : Char) ≠ 'P' := by decide
    simp only [if_neg hps, if_pos rfl, hy]
    simp [isPathB]
  | cons c cs ih =>
    intro x hpath
    rw [List.cons_append]
    cases hax : alookup fam.people x with
    | none =>
      rw [isPathB, hax] at hpath
      cases hpath
    | some p =>
      by_cases hc : c = 'P'
      · subst hc
        rw [isPathB, hax] at hpath
        simp only [if_pos rfl] at hpath
        obtain ⟨par, hparm, hpp⟩ := List.any_eq_true.mp hpath
        rw [isPathB, hax]
        simp only [if_pos rfl]
        exact List.any_eq_true.mpr ⟨par, hparm, ih par hpp⟩
      · by_cases hcs : c = 'S'
        · subst hcs
          rw [isPathB, hax] at hpath
          simp only [if_neg hc] at hpath
          rw [isPathB, hax]
          simp only [if_neg hc, if_pos rfl]
          cases hspo : p.spouse with
          | none =>
            rw [hspo] at hpath
            simp at hpath
          | some sp =>
            rw [hspo] at hpath
            simp only [if_pos rfl] at hpath
            exact ih sp hpath
        · rw [isPathB, hax] at hpath
          simp only [if_neg hc, if_neg hcs] at hpath
          cases hpath

/-- The combined BFS value invariant: each dictionary entry is a realised
walk from the start, uses at most one spouse-step, and is written over
the alphabet of parent- and spouse-steps. -/
def entryInv (fam : Family) (start : String) (n : String) (code : String) : Prop :=
  isPathB fam start code.data n = true ∧
  code.data.count 'S' ≤ 1 ∧
  ∀ c ∈ code.data, c = 'P' ∨ c = 'S'

theorem connections_entries (fam : Family) (p : Person) :
    (∀ e ∈ Person.connections fam p, entryInv fam p.name e.1 e.2) ∧
    alookup (Person.connections fam p) p.name = some ("") ∧
    connectionsAux fam (connFuel fam p.name) [p.name] [(p.name, (""))] =
      some (Person.connections fam p) := by
  have h := connections_spec fam p (entryInv fam p.name)
    (by
      intro person pp pr parent hV hpr hmem
      obtain ⟨h1, h2, h3⟩ := hV
      refine ⟨isPathB_snoc_parent fam person pr hpr parent hmem pp.data p.name h1, ?_, ?_⟩
      · rw [countS_append_P]
        exact h2
      · intro c hc
        rw [str_data_append] at hc
        rcases List.mem_append.mp hc with h | h
        · exact h3 c h
        · left
          simpa using h)
    (by
      intro person pp pr sp hV hpr hsp hS
      obtain ⟨h1, h2, h3⟩ := hV
      refine ⟨isPathB_snoc_spouse fam person pr hpr sp hsp pp.data p.name h1, ?_, ?_⟩
      · rw [countS_append_S, hasS_false_count pp hS]
      · intro c hc
        rw [str_data_append] at hc
        rcases List.mem_append.mp hc with h | h
        · exact h3 c h
        · right
          simpa using h)
    (by
      refine ⟨by simp [isPathB], by simp, by simp⟩)
  exact ⟨h.2.1, h.2.2, h.1⟩

/-! ### The identity key is the least combined key -/

theorem colon_le_of_alphabet (q q' : String)
    (hq : ∀ c ∈ q.data, c = 'P' ∨ c = 'S') :
    (((":")) : String) ≤ q ++ ((":")) ++ q' := by
  apply not_lt.mp
  intro hlt
  have hlex : List.Lex (· < ·) (q ++ ((":")) ++ q').data ((((":")) : String).data) :=
    String.lt_iff_toList_lt.mp hlt
  have hdat : (q ++ ((":")) ++ q').data = q.data ++ [':'] ++ q'.data := by
    rw [str_data_append, str_data_append]
  rw [hdat] at hlex
  have hcolon : ((((":")) : String).data) = [':'] := rfl
  rw [hcolon] at hlex
  cases hqd : q.data with
  | nil =>
    rw [hqd] at hlex
    simp only [List.nil_append] at hlex
    cases hlex with
    | rel h => exact absurd h (by decide)
    | cons h => exact (List.Lex.not_nil_right _ _) h
  | cons c cs =>
    rw [hqd] at hlex
    simp only [List.cons_append] at hlex
    have hc := hq c (by rw [hqd]; exact List.mem_cons_self _ _)
    cases hlex with
    | rel h =>
      rcases hc with hc | hc <;> (subst hc; exact absurd h (by decide))
    | cons h =>
      rcases hc with hc | hc <;> exact absurd hc (by decide)

/-! ### The shared set -/

theorem mem_sharedOf_iff (fam : Family) (a b : Person) (n : String) :
    n ∈ sharedOf fam a b ↔
      n ∈ (Person.connections fam a).map Prod.fst ∧
      n ∈ (Person.connections fam b).map Prod.fst := by
  rw [sharedOf, List.mem_filter]
  constructor
  · rintro ⟨h1, h2⟩
    exact ⟨h1, (alookup_isSome_iff _ _).mp h2⟩
  · rintro ⟨h1, h2⟩
    exact ⟨h1, (alookup_isSome_iff _ _).mpr h2⟩

/-! ### Claim theorems -/

/-- Claim C1: for individuals that share at least one reachable person,
`relation_to` forms the combined key for every shared person, selects the
least combined key under plain lexicographic string comparison (every
other candidate is greater or equal in the string order, with no
length-first step), and when that key is present in the kinship table it
returns the table entry for the querying individual's gender. -/
theorem relation_to_lex_min (fam : Family) (a b : Person)
    (hsh : sharedOf fam a b ≠ []) :
    (∀ c ∈ sharedOf fam a b, combinedKey fam a b c ∈ combinedOf fam a b) ∧
    lcrOf fam a b ∈ combinedOf fam a b ∧
    (∀ k ∈ combinedOf fam a b, lcrOf fam a b ≤ k) ∧
    (∀ entry, alookup relationships (lcrOf fam a b) = some entry →
      Person.relation_to fam a b = some (selectGender entry a.gender)) := by
  have hcomb : combinedOf fam a b ≠ [] := by
    rw [combinedOf]
    intro h
    exact hsh (List.map_eq_nil_iff.mp h)
  refine ⟨?_, pymin_mem _ hcomb, fun k hk => pymin_le _ k hk, ?_⟩
  · intro c hc
    exact List.mem_map_of_mem _ hc
  · intro entry hentry
    rw [Person.relation_to, if_neg hsh, hentry]

theorem relation_to_lex_min_witness :
    sharedOf s1fam s1Alice s1Carol ≠ [] ∧
    lcrOf s1fam s1Alice s1Carol ∈ combinedOf s1fam s1Alice s1Carol ∧
    (∀ k ∈ combinedOf s1fam s1Alice s1Carol, lcrOf s1fam s1Alice s1Carol ≤ k) ∧
    Person.relation_to s1fam s1Alice s1Carol = some (("mother")) := by
  have h := relation_to_lex_min s1fam s1Alice s1Carol (by decide)
  refine ⟨by decide, h.2.1, h.2.2.1, ?_⟩
  have hres := h.2.2.2 ((("father")), (("mother"))) (by decide)
  rw [hres]
  decide

/-- Claim C4: `relation_to` returns the not-related signal (the `none`
value of its total return type, never an exception) exactly when the key
sets of the two connection dictionaries have empty intersection. -/
theorem relation_to_none_iff (fam : Family) (a b : Person) :
    Person.relation_to fam a b = none ↔
      ∀ n, ¬ (n ∈ (Person.connections fam a).map Prod.fst ∧
              n ∈ (Person.connections fam b).map Prod.fst) := by
  constructor
  · intro h n hn
    by_cases hc : sharedOf fam a b = []
    · have hmem : n ∈ sharedOf fam a b := (mem_sharedOf_iff fam a b n).mpr hn
      rw [hc] at hmem
      cases hmem
    · have hne : Person.relation_to fam a b ≠ none := by
        rw [Person.relation_to, if_neg hc]
        cases alookup relationships (lcrOf fam a b) <;> simp
      exact hne h
  · intro h
    have hsh : sharedOf fam a b = [] := by
      cases hq : sharedOf fam a b with
      | nil => rfl
      | cons x xs =>
        exfalso
        have hx : x ∈ sharedOf fam a b := by
          rw [hq]
          exact List.mem_cons_self _ _
        exact h x ((mem_sharedOf_iff fam a b x).mp hx)
    rw [Person.relation_to, if_pos hsh]

/-- Claim C5: with a non-empty shared set, a selected minimum key absent
from the kinship table produces the generic distant-relative term rather
than a failure. -/
theorem relation_to_distant_fallback (fam : Family) (a b : Person)
    (hsh : sharedOf fam a b ≠ [])
    (habs : alookup relationships (lcrOf fam a b) = none) :
    Person.relation_to fam a b = some (("distant relative")) := by
  rw [Person.relation_to, if_neg hsh, habs]

theorem relation_to_distant_fallback_witness :
    sharedOf s3fam s3G s3C ≠ [] ∧
    alookup relationships (lcrOf s3fam s3G s3C) = none ∧
    Person.relation_to s3fam s3G s3C = some (("distant relative")) :=
  ⟨by decide, by decide,
    relation_to_distant_fallback s3fam s3G s3C (by decide) (by decide)⟩

/-- Claim C6 (amended): the set of shared reachable individuals is
symmetric in the two query individuals.  The original claim's second
half -- that the selected lowest common relative agrees between the two
directions -- is refuted by `lcr_not_symmetric_cex`. -/
theorem sharedOf_symm_mem (fam : Family) (a b : Person) (n : String) :
    n ∈ sharedOf fam a b ↔ n ∈ sharedOf fam b a := by
  rw [mem_sharedOf_iff, mem_sharedOf_iff]
  exact and_comm

/-- Claim C6 counterexample: on `c6fam` the shared set is the same in
both directions, but the program's minimum combined key is attained only
by C1 for the query (A, B) and only by B for the query (B, A): the
selected lowest common relative is a different individual. -/
theorem lcr_not_symmetric_cex :
    lcrPersonsOf c6fam c6A c6B = [(("C1"))] ∧
    lcrPersonsOf c6fam c6B c6A = [(("B"))] ∧
    ¬ lcrPersonsOf c6fam c6A c6B = lcrPersonsOf c6fam c6B c6A := by
  refine ⟨?_, ?_, ?_⟩ <;> decide

/-- Claim C8: every individual is mapped to the empty path code in its
own connection dictionary; the self-query therefore shares the individual
itself, selects the combined key ":", and returns a defined result -- the
table entry for the individual's gender if ":" is mapped, otherwise the
distant-relative fallback -- never the not-related signal and never a
failure. -/
theorem relation_to_self (fam : Family) (p : Person) :
    alookup (Person.connections fam p) p.name = some (("")) ∧
    lcrOf fam p p = ((":")) ∧
    Person.relation_to fam p p =
      some (match alookup relationships ((":")) with
            | some entry => selectGender entry p.gender
            | none => (("distant relative"))) := by
  obtain ⟨hinv, hself, _⟩ := connections_entries fam p
  have hmemk : p.name ∈ (Person.connections fam p).map Prod.fst :=
    mem_keys_of_alookup _ _ _ hself
  have hshared : p.name ∈ sharedOf fam p p :=
    (mem_sharedOf_iff fam p p p.name).mpr ⟨hmemk, hmemk⟩
  have hkey : combinedKey fam p p p.name = ((":")) := by
    rw [combinedKey, hself]
    rfl
  have hmin : ∀ k ∈ combinedOf fam p p, ((((":")) : String)) ≤ k := by
    intro k hk
    obtain ⟨c, hc, hck⟩ := List.mem_map.mp hk
    obtain ⟨hc1, _⟩ := (mem_sharedOf_iff fam p p c).mp hc
    obtain ⟨q, hq⟩ := alookup_isSome_exists _ _ (alookup_isSome_of_mem_keys _ _ hc1)
    have halpha : ∀ ch ∈ q.data, ch = 'P' ∨ ch = 'S' :=
      (hinv (c, q) (alookup_mem _ _ _ hq)).2.2
    rw [← hck, combinedKey, hq]
    simp only [Option.getD_some]
    exact colon_le_of_alphabet q _ halpha
  have hlcr : lcrOf fam p p = ((":")) := by
    rw [lcrOf]
    apply pymin_eq_of_le
    · rw [← hkey]
      exact List.mem_map_of_mem _ hshared
    · exact hmin
  have hne : sharedOf fam p p ≠ [] := by
    intro h
    rw [h] at hshared
    cases hshared
  refine ⟨hself, hlcr, ?_⟩
  rw [Person.relation_to, if_neg hne, hlcr]
  cases alookup relationships ((":")) <;> rfl

/-- Claim C2 counterexample: in `exFam` the BFS records the five-step
code "PPPPP" for w, yet the four-step walk parent-parent-parent-spouse,
which uses a single spouse-step, also reaches w; the recorded code length
is therefore not the minimum number of steps. -/
theorem connections_not_shortest_cex :
    alookup (Person.connections exFam exX) (("w")) = some (("PPPPP")) ∧
    isPathB exFam (("X")) ['P', 'P', 'P', 'S'] (("w")) = true ∧
    ['P', 'P', 'P', 'S'].count 'S' ≤ 1 ∧
    ['P', 'P', 'P', 'S'].length < ((("PPPPP")) : String).data.length := by
  refine ⟨?_, ?_, ?_, ?_⟩ <;> decide

/-- Claim C2 (amended): every path code in the connection dictionary
describes an actual parent/spouse walk from the start to the keyed
person that uses at most one spouse-step, so its length bounds the
minimal number of steps from above; it is not in general equal to that
minimum. -/
theorem connections_path_sound (fam : Family) (p : Person) (y code : String)
    (h : alookup (Person.connections fam p) y = some code) :
    isPathB fam p.name code.data y = true ∧ code.data.count 'S' ≤ 1 := by
  have hinv := (connections_entries fam p).1 (y, code) (alookup_mem _ _ _ h)
  exact ⟨hinv.1, hinv.2.1⟩

theorem connections_path_sound_witness :
    alookup (Person.connections exFam exX) (("w")) = some (("PPPPP")) ∧
    (isPathB exFam exX.name ((("PPPPP")) : String).data (("w")) = true ∧
      ((("PPPPP")) : String).data.count 'S' ≤ 1) :=
  ⟨by decide, connections_path_sound exFam exX (("w")) (("PPPPP")) (by decide)⟩

/-- Claim C3: no path code in any connection dictionary contains more
than one spouse-step. -/
theorem connections_one_spouse (fam : Family) (p : Person) (y code : String)
    (h : alookup (Person.connections fam p) y = some code) :
    code.data.count 'S' ≤ 1 :=
  ((connections_entries fam p).1 (y, code) (alookup_mem _ _ _ h)).2.1

theorem connections_one_spouse_witness :
    alookup (Person.connections s1fam s1Alice) (("Bob")) = some (("S")) ∧
    ((("S")) : String).data.count 'S' ≤ 1 :=
  ⟨by decide, connections_one_spouse s1fam s1Alice (("Bob")) (("S")) (by decide)⟩

/-- Claim C9: the BFS loop terminates on every family graph: the fuel
`connFuel` always suffices because each person enters the dictionary at
most once and only newly entered persons are enqueued.  In particular it
terminates on `cycFam`, whose parent links form a cycle between A and
B. -/
theorem connections_terminates :
    (∀ (fam : Family) (p : Person),
      connectionsAux fam (connFuel fam p.name) [p.name] [(p.name, (""))] =
        some (Person.connections fam p)) ∧
    Person.connections cycFam cycA = [((("A")), ("")), ((("B")), (("P")))] := by
  constructor
  · intro fam p
    exact (connections_entries fam p).2.2
  · decide

/-! ### Construction-time reference checking -/

theorem updAt_keys (ppl : List (String × Person)) (t : String) (f : Person → Person) :
    (updAt ppl t f).map Prod.fst = ppl.map Prod.fst := by
  induction ppl with
  | nil => rfl
  | cons e rest ih =>
    simp only [updAt, List.map_cons] at ih ⊢
    by_cases h : e.1 = t
    · simp only [if_pos h]
      rw [ih]
    · simp only [if_neg h]
      rw [ih]

theorem addParentList_ok : ∀ (pns : List String) (ppl ppl' : List (String × Person))
    (cname : String), addParentList cname ppl pns = Except.ok ppl' →
    (∀ pn ∈ pns, pn ∈ ppl.map Prod.fst) ∧ ppl'.map Prod.fst = ppl.map Prod.fst := by
  intro pns
  induction pns with
  | nil =>
    intro ppl ppl' cname h
    simp only [addParentList] at h
    cases h
    exact ⟨by simp, rfl⟩
  | cons pn rest ih =>
    intro ppl ppl' cname h
    cases hl : alookup ppl pn with
    | none =>
      rw [addParentList, hl] at h
      cases h
    | some pr =>
      rw [addParentList, hl] at h
      obtain ⟨h1, h2⟩ := ih _ _ _ h
      rw [updAt_keys] at h1 h2
      refine ⟨?_, h2⟩
      intro x hx
      rcases List.mem_cons.mp hx with hx2 | hx2
      · rw [hx2]
        exact (alookup_isSome_iff _ _).mp (by rw [hl]; rfl)
      · exact h1 x hx2

theorem addParentsAll_ok : ∀ (pl : List (String × List String))
    (ppl ppl' : List (String × Person)), addParentsAll ppl pl = Except.ok ppl' →
    (∀ ent ∈ pl, ent.1 ∈ ppl.map Prod.fst ∧ ∀ pn ∈ ent.2, pn ∈ ppl.map Prod.fst) ∧
    ppl'.map Prod.fst = ppl.map Prod.fst := by
  intro pl
  induction pl with
  | nil =>
    intro ppl ppl' h
    simp only [addParentsAll] at h
    cases h
    exact ⟨by simp, rfl⟩
  | cons ent rest ih =>
    intro ppl ppl' h
    obtain ⟨cname, pns⟩ := ent
    cases hl : alookup ppl cname with
    | none =>
      rw [addParentsAll, hl] at h
      cases h
    | some pr =>
      rw [addParentsAll, hl] at h
      cases hpl : addParentList cname ppl pns with
      | error e =>
        rw [hpl] at h
        cases h
      | ok mid =>
        rw [hpl] at h
        obtain ⟨hrefs1, hkeys1⟩ := addParentList_ok pns ppl mid cname hpl
        obtain ⟨hrefs2, hkeys2⟩ := ih mid ppl' h
        refine ⟨?_, by rw [hkeys2, hkeys1]⟩
        intro e2 he2
        rcases List.mem_cons.mp he2 with he3 | he3
        · rw [he3]
          exact ⟨(alookup_isSome_iff _ _).mp (by rw [hl]; rfl), hrefs1⟩
        · obtain ⟨ha, hb⟩ := hrefs2 e2 he3
          rw [hkeys1] at ha hb
          exact ⟨ha, hb⟩

theorem addCouplesAll_ok : ∀ (cl : List (String × String))
    (ppl ppl' : List (String × Person)), addCouplesAll ppl cl = Except.ok ppl' →
    (∀ c ∈ cl, c.1 ∈ ppl.map Prod.fst ∧ c.2 ∈ ppl.map Prod.fst) ∧
    ppl'.map Prod.fst = ppl.map Prod.fst := by
  intro cl
  induction cl with
  | nil =>
    intro ppl ppl' h
    simp only [addCouplesAll] at h
    cases h
    exact ⟨by simp, rfl⟩
  | cons c rest ih =>
    intro ppl ppl' h
    obtain ⟨n1, n2⟩ := c
    cases hl1 : alookup ppl n1 with
    | none =>
      rw [addCouplesAll, hl1] at h
      cases h
    | some pr1 =>
      cases hl2 : alookup ppl n2 with
      | none =>
        rw [addCouplesAll, hl1, hl2] at h
        cases h
      | some pr2 =>
        rw [addCouplesAll, hl1, hl2] at h
        obtain ⟨hrefs, hkeys⟩ := ih _ _ h
        rw [updAt_keys, updAt_keys] at hrefs hkeys
        refine ⟨?_, hkeys⟩
        intro e2 he2
        rcases List.mem_cons.mp he2 with he3 | he3
        · rw [he3]
          exact ⟨(alookup_isSome_iff _ _).mp (by rw [hl1]; rfl),
            (alookup_isSome_iff _ _).mp (by rw [hl2]; rfl)⟩
        · exact hrefs e2 he3

/-- Claim C7: a description whose parent lists or couple pairs reference
a name that is missing from the individuals mapping fails to construct:
`Family.init` returns the unknown-individual error instead of a family,
so the failure surfaces before any query can run. -/
theorem family_init_unknown_error (d : FamilyDesc)
    (h : (∃ ent ∈ d.parents, ∃ pn ∈ ent.2, alookup d.individuals pn = none) ∨
         (∃ c ∈ d.couples,
           alookup d.individuals c.1 = none ∨ alookup d.individuals c.2 = none)) :
    ∃ e, Family.init d = Except.error e := by
  cases hinit : Family.init d with
  | error e => exact ⟨e, rfl⟩
  | ok f =>
    exfalso
    simp only [Family.init] at hinit
    have hk0 : (d.individuals.map (fun e => (e.1, Person.mk e.1 e.2 [] none))).map Prod.fst
        = d.individuals.map Prod.fst := by
      rw [List.map_map]
      rfl
    cases hpar : addParentsAll
        (d.individuals.map (fun e => (e.1, Person.mk e.1 e.2 [] none))) d.parents with
    | error e =>
      rw [hpar] at hinit
      cases hinit
    | ok p1 =>
      simp only [hpar] at hinit
      cases hcpl : addCouplesAll p1 d.couples with
      | error e =>
        simp only [hcpl] at hinit
        cases hinit
      | ok p2 =>
        obtain ⟨hrefs1, hkeys1⟩ := addParentsAll_ok d.parents _ p1 hpar
        obtain ⟨hrefs2, hkeys2⟩ := addCouplesAll_ok d.couples p1 p2 hcpl
        rcases h with ⟨ent, hent, pn, hpn, habs⟩ | ⟨c, hc, habs⟩
        · have hm : pn ∈ (d.individuals.map
              (fun e => (e.1, Person.mk e.1 e.2 [] none))).map Prod.fst :=
            (hrefs1 ent hent).2 pn hpn
          rw [hk0] at hm
          exact (alookup_eq_none_iff _ _).mp habs hm
        · have hm := hrefs2 c hc
          rw [hkeys1, hk0] at hm
          rcases habs with habs | habs
          · exact (alookup_eq_none_iff _ _).mp habs hm.1
          · exact (alookup_eq_none_iff _ _).mp habs hm.2

theorem family_init_unknown_error_witness :
    ((∃ ent ∈ badDesc.parents, ∃ pn ∈ ent.2, alookup badDesc.individuals pn = none) ∨
     (∃ c ∈ badDesc.couples,
       alookup badDesc.individuals c.1 = none ∨ alookup badDesc.individuals c.2 = none)) ∧
    ∃ e, Family.init badDesc = Except.error e :=
  ⟨Or.inl (by decide), family_init_unknown_error badDesc (Or.inl (by decide))⟩

/-- Claim C10: calling `Family.relation` with a name that is not a key of
the people dictionary raises (the absent name resolves to the null person,
which is then dereferenced); it never returns the not-related signal or a
kinship term. -/
theorem family_relation_unknown_raises (fam : Family) (n1 n2 : String)
    (h : alookup fam.people n1 = none ∨ alookup fam.people n2 = none) :
    Family.relation fam n1 n2 = Except.error RunError.noneTypeError ∧
    ∀ r, ¬ Family.relation fam n1 n2 = Except.ok r := by
  have hrel : Family.relation fam n1 n2 = Except.error RunError.noneTypeError := by
    rw [Family.relation]
    rcases h with h | h
    · rw [h]
    · rw [h]
      cases alookup fam.people n1 <;> rfl
  refine ⟨hrel, ?_⟩
  intro r hr
  rw [hrel] at hr
  cases hr

theorem family_relation_unknown_raises_witness :
    (alookup s1fam.people (("Zed")) = none ∨ alookup s1fam.people (("Alice")) = none) ∧
    Family.relation s1fam (("Zed")) (("Alice")) = Except.error RunError.noneTypeError :=
  ⟨Or.inl (by decide),
    (family_relation_unknown_raises s1fam (("Zed")) (("Alice")) (Or.inl (by decide))).1⟩

end Kinship
